import Mathlib

/-!
Verification of the `RingBuffer` implementation in `src/Mordor/src/main.rs`.

The Rust code is shallowly embedded as follows:
* `Vec<Option<u8>>` becomes `List (Option Nat)`; stored bytes are modelled as
  `Nat` since the code performs no arithmetic on the stored values, only on
  indices.
* `&mut self` methods become functions returning the result paired with the
  updated state.
* `Result<(), String>` becomes `Except String Unit`, `Option<u8>` becomes
  `Option Nat`.
* The `assert!(capacity > 0, ...)` panic in `RingBuffer::new` is modelled by
  `new` returning `Option RingBuffer`: `none` models the panic.
* Rust's `usize` arithmetic here never overflows (indices stay below
  `capacity` and `size` at most reaches `capacity`), so plain `Nat` is used.
-/

/-- Embeds `pub struct RingBuffer { buffer, capacity, head, tail, size }`. -/
structure RingBuffer where
  buffer : List (Option Nat)
  capacity : Nat
  head : Nat
  tail : Nat
  size : Nat
deriving DecidableEq

/-- Embeds `RingBuffer::new`: `assert!(capacity > 0)` is modelled by the
`none` branch; otherwise `capacity` slots initialised to `None`, with
`head = tail = size = 0`. -/
def RingBuffer.new (capacity : Nat) : Option RingBuffer :=
  if capacity > 0 then
    some { buffer := List.replicate capacity none
           capacity := capacity
           head := 0
           tail := 0
           size := 0 }
  else
    none

/-- Embeds `RingBuffer::is_empty`: `self.size == 0`. -/
def RingBuffer.is_empty (b : RingBuffer) : Bool :=
  b.size == 0

/-- Embeds `RingBuffer::is_full`: `self.size == self.capacity`. -/
def RingBuffer.is_full (b : RingBuffer) : Bool :=
  b.size == b.capacity

/-- Embeds `RingBuffer::len`: returns `self.size`. -/
def RingBuffer.len (b : RingBuffer) : Nat :=
  b.size

/-- Embeds `RingBuffer::push`: error on a full buffer, otherwise write the
value at `tail`, advance `tail` modulo `capacity`, increment `size`. -/
def RingBuffer.push (b : RingBuffer) (value : Nat) : Except String Unit × RingBuffer :=
  if b.is_full then
    (Except.error "Буфер Заполнен!", b)
  else
    (Except.ok (),
     { b with buffer := b.buffer.set b.tail (some value)
              tail := (b.tail + 1) % b.capacity
              size := b.size + 1 })

/-- Embeds `RingBuffer::pop`: `None` on an empty buffer, otherwise take the
value at `head` (clearing the slot, as `Option::take` does), advance `head`
modulo `capacity`, decrement `size`. -/
def RingBuffer.pop (b : RingBuffer) : Option Nat × RingBuffer :=
  if b.is_empty then
    (none, b)
  else
    (b.buffer.getD b.head none,
     { b with buffer := b.buffer.set b.head none
              head := (b.head + 1) % b.capacity
              size := b.size - 1 })

/-- Embeds `RingBuffer::extend`: push each byte in order, stopping at the
first failed push; returns the count of successfully inserted bytes. -/
def RingBuffer.extend (b : RingBuffer) (data : List Nat) : Nat × RingBuffer :=
  match data with
  | [] => (0, b)
  | byte :: rest =>
    match b.push byte with
    | (Except.error _, b1) => (0, b1)
    | (Except.ok _, b1) =>
      let r := b1.extend rest
      (r.1 + 1, r.2)

/-- Embeds `RingBuffer::drain`: pop up to `count` times, stopping early when
the buffer is empty; returns the popped values in order. -/
def RingBuffer.drain (b : RingBuffer) (count : Nat) : List Nat × RingBuffer :=
  match count with
  | 0 => ([], b)
  | Nat.succ n =>
    match b.pop with
    | (some byte, b1) =>
      let r := b1.drain n
      (byte :: r.1, r.2)
    | (none, b1) => ([], b1)

/-- Abstraction relation: the buffer `b` is well formed and its logical
content, oldest first, is the list `L`.  Clause by clause: the physical
storage has exactly `capacity` slots; the capacity is positive; `head` is in
range; `tail` sits `size` slots past `head` (modulo `capacity`); `size` never
exceeds `capacity`; `L` has `size` elements; slot `(head + k) % capacity`
holds the `k`-th oldest value; and every slot outside that window is `none`. -/
def Models (b : RingBuffer) (L : List Nat) : Prop :=
  b.buffer.length = b.capacity ∧
  0 < b.capacity ∧
  b.head < b.capacity ∧
  b.tail = (b.head + b.size) % b.capacity ∧
  b.size ≤ b.capacity ∧
  L.length = b.size ∧
  (∀ k, k < b.size → b.buffer.getD ((b.head + k) % b.capacity) none = some (L.getD k 0)) ∧
  (∀ i, i < b.capacity → (∀ k, k < b.size → i ≠ (b.head + k) % b.capacity) →
    b.buffer.getD i none = none)

instance (b : RingBuffer) (L : List Nat) : Decidable (Models b L) := by
  unfold Models
  infer_instance

/-- States reachable from a successful `RingBuffer::new` by any sequence of
`push`, `pop`, `extend` and `drain` calls. -/
inductive Reachable : RingBuffer → Prop
  | mk_new : ∀ (c : Nat) (b : RingBuffer), RingBuffer.new c = some b → Reachable b
  | step_push : ∀ (b : RingBuffer) (v : Nat), Reachable b → Reachable (b.push v).2
  | step_pop : ∀ (b : RingBuffer), Reachable b → Reachable b.pop.2
  | step_extend : ∀ (b : RingBuffer) (data : List Nat), Reachable b → Reachable (b.extend data).2
  | step_drain : ∀ (b : RingBuffer) (n : Nat), Reachable b → Reachable (b.drain n).2

/-! Helper lemmas about `List.getD` on `set` and `replicate`. -/

theorem getD_set_eq {α : Type} {l : List α} {i : Nat} (h : i < l.length) (a d : α) :
    (l.set i a).getD i d = a := by
  rw [List.getD_eq_getElem (l.set i a) d (by simpa using h)]
  exact List.getElem_set_self (by simpa using h)

theorem getD_set_ne {α : Type} {l : List α} {i j : Nat} (h : i ≠ j) (a d : α) :
    (l.set i a).getD j d = l.getD j d := by
  unfold List.getD
  rw [List.get?_eq_getElem?, List.get?_eq_getElem?, List.getElem?_set_ne h]

theorem getD_replicate_of_lt {α : Type} {n i : Nat} (h : i < n) (a d : α) :
    (List.replicate n a).getD i d = a := by
  rw [List.getD_eq_getElem (List.replicate n a) d (by simpa using h)]
  exact List.getElem_replicate a (by simpa using h)

/-- If two offsets below the modulus land on the same slot of the ring, they
are equal. -/
theorem window_inj {n a k l : Nat} (hk : k < n) (hl : l < n)
    (h : (a + k) % n = (a + l) % n) : k = l := by
  have h2 : k ≡ l [MOD n] := Nat.ModEq.add_left_cancel (Nat.ModEq.refl a) h
  have h3 : k % n = l % n := h2
  rwa [Nat.mod_eq_of_lt hk, Nat.mod_eq_of_lt hl] at h3

/-! Equations for the operations on the two branches of their guards. -/

theorem push_not_full_eq (b : RingBuffer) (v : Nat) (h : b.size ≠ b.capacity) :
    b.push v =
      (Except.ok (),
       { b with buffer := b.buffer.set b.tail (some v)
                tail := (b.tail + 1) % b.capacity
                size := b.size + 1 }) := by
  simp [RingBuffer.push, RingBuffer.is_full, h]

theorem push_full_eq (b : RingBuffer) (v : Nat) (h : b.size = b.capacity) :
    b.push v = (Except.error "Буфер Заполнен!", b) := by
  simp [RingBuffer.push, RingBuffer.is_full, h]

theorem pop_empty_eq (b : RingBuffer) (h : b.size = 0) : b.pop = (none, b) := by
  simp [RingBuffer.pop, RingBuffer.is_empty, h]

theorem pop_nonempty_eq (b : RingBuffer) (h : b.size ≠ 0) :
    b.pop =
      (b.buffer.getD b.head none,
       { b with buffer := b.buffer.set b.head none
                head := (b.head + 1) % b.capacity
                size := b.size - 1 }) := by
  simp [RingBuffer.pop, RingBuffer.is_empty, h]

/-! The operations preserve the abstraction relation. -/

theorem new_models {c : Nat} {b : RingBuffer} (h : RingBuffer.new c = some b) :
    Models b [] := by
  unfold RingBuffer.new at h
  by_cases hc : 0 < c
  · rw [if_pos hc, Option.some_inj] at h
    subst h
    unfold Models
    dsimp only
    refine ⟨by simp, hc, hc, by simp, by omega, rfl, ?_, ?_⟩
    · intro k hk
      omega
    · intro i hi _
      exact getD_replicate_of_lt hi none none
  · rw [if_neg hc] at h
    exact absurd h (by simp)

theorem push_models {b : RingBuffer} {L : List Nat} (hM : Models b L) (v : Nat)
    (h : b.size < b.capacity) :
    Models (b.push v).2 (L ++ [v]) := by
  obtain ⟨hlen, hcap, hhead, htail, hsz, hL, hwin, hemp⟩ := hM
  rw [push_not_full_eq b v (Nat.ne_of_lt h)]
  have htlt : b.tail < b.buffer.length := by
    rw [hlen, htail]
    exact Nat.mod_lt _ hcap
  unfold Models
  dsimp only
  refine ⟨by simpa using hlen, hcap, hhead, ?_, by omega, by simpa using hL, ?_, ?_⟩
  · show (b.tail + 1) % b.capacity = (b.head + (b.size + 1)) % b.capacity
    rw [htail, Nat.mod_add_mod]
    rfl
  · intro k hk
    show (b.buffer.set b.tail (some v)).getD ((b.head + k) % b.capacity) none
      = some ((L ++ [v]).getD k 0)
    by_cases hks : k < b.size
    · have hne : b.tail ≠ (b.head + k) % b.capacity := by
        rw [htail]
        intro hcontra
        exact absurd (window_inj h (by omega) hcontra) (by omega)
      rw [getD_set_ne hne, hwin k hks, List.getD_append _ _ _ _ (by omega)]
    · have hk' : k = b.size := by omega
      subst hk'
      rw [← htail, getD_set_eq htlt, List.getD_append_right _ _ _ _ (by omega)]
      simp [hL]
  · intro i hi hout
    show (b.buffer.set b.tail (some v)).getD i none = none
    have hne : b.tail ≠ i := by
      intro hcontra
      exact hout b.size (by omega) (by rw [← hcontra, htail])
    rw [getD_set_ne hne]
    exact hemp i hi fun k hk => hout k (by omega)

theorem head_slot_eq {b : RingBuffer} {v : Nat} {L : List Nat}
    (hM : Models b (v :: L)) : b.buffer.getD b.head none = some v := by
  obtain ⟨hlen, hcap, hhead, htail, hsz, hL, hwin, hemp⟩ := hM
  have h0 : 0 < b.size := by
    simp only [List.length_cons] at hL
    omega
  have hw := hwin 0 h0
  simpa [Nat.mod_eq_of_lt hhead] using hw

theorem pop_cons_eq {b : RingBuffer} {v : Nat} {L : List Nat}
    (hM : Models b (v :: L)) :
    b.pop =
      (some v,
       { b with buffer := b.buffer.set b.head none
                head := (b.head + 1) % b.capacity
                size := b.size - 1 }) := by
  have hs0 : b.size ≠ 0 := by
    obtain ⟨_, _, _, _, _, hL, _, _⟩ := hM
    simp only [List.length_cons] at hL
    omega
  rw [pop_nonempty_eq b hs0, head_slot_eq hM]

theorem pop_models {b : RingBuffer} {v : Nat} {L : List Nat}
    (hM : Models b (v :: L)) : Models b.pop.2 L := by
  obtain ⟨hlen, hcap, hhead, htail, hsz, hL, hwin, hemp⟩ := hM
  have hLlen : L.length + 1 = b.size := by simpa using hL
  have hs0 : b.size ≠ 0 := by omega
  rw [pop_nonempty_eq b hs0]
  have hhlt : b.head < b.buffer.length := by omega
  have hidx : ∀ k, ((b.head + 1) % b.capacity + k) % b.capacity
      = (b.head + (k + 1)) % b.capacity := by
    intro k
    rw [Nat.mod_add_mod]
    congr 1
    omega
  unfold Models
  dsimp only
  refine ⟨by simpa using hlen, hcap, Nat.mod_lt _ hcap, ?_, by omega, by omega, ?_, ?_⟩
  · show b.tail = ((b.head + 1) % b.capacity + (b.size - 1)) % b.capacity
    rw [Nat.mod_add_mod]
    have he : b.head + 1 + (b.size - 1) = b.head + b.size := by omega
    rw [he, ← htail]
  · intro k hk
    show (b.buffer.set b.head none).getD
        (((b.head + 1) % b.capacity + k) % b.capacity) none = some (L.getD k 0)
    rw [hidx k]
    have hne : b.head ≠ (b.head + (k + 1)) % b.capacity := by
      intro hcontra
      have h0 : (b.head + 0) % b.capacity = (b.head + (k + 1)) % b.capacity := by
        rw [Nat.add_zero, Nat.mod_eq_of_lt hhead]
        exact hcontra
      exact absurd (window_inj hcap (show k + 1 < b.capacity by omega) h0).symm (by omega)
    rw [getD_set_ne hne]
    have hw := hwin (k + 1) (by omega)
    simpa using hw
  · intro i hi hout
    show (b.buffer.set b.head none).getD i none = none
    by_cases hih : i = b.head
    · subst hih
      exact getD_set_eq hhlt none none
    · rw [getD_set_ne (fun e => hih e.symm)]
      refine hemp i hi ?_
      intro k hk
      match k with
      | 0 =>
        rw [Nat.add_zero, Nat.mod_eq_of_lt hhead]
        exact hih
      | j + 1 =>
        rw [← hidx j]
        exact hout j (by omega)

theorem extend_nil_eq (b : RingBuffer) : b.extend [] = (0, b) := rfl

theorem extend_cons_full_eq (b : RingBuffer) (byte : Nat) (rest : List Nat)
    (h : b.size = b.capacity) : b.extend (byte :: rest) = (0, b) := by
  unfold RingBuffer.extend
  rw [push_full_eq b byte h]

theorem extend_cons_ok_eq (b : RingBuffer) (byte : Nat) (rest : List Nat)
    (h : b.size ≠ b.capacity) :
    b.extend (byte :: rest) =
      (((b.push byte).2.extend rest).1 + 1, ((b.push byte).2.extend rest).2) := by
  conv_lhs => unfold RingBuffer.extend
  rw [push_not_full_eq b byte h]

theorem drain_zero_eq (b : RingBuffer) : b.drain 0 = ([], b) := rfl

theorem drain_succ_cons_eq (b : RingBuffer) {v : Nat} {L : List Nat}
    (hM : Models b (v :: L)) (n : Nat) :
    b.drain (n + 1) = (v :: (b.pop.2.drain n).1, (b.pop.2.drain n).2) := by
  conv_lhs => unfold RingBuffer.drain
  rw [pop_cons_eq hM]

theorem drain_succ_empty_eq (b : RingBuffer) (h : b.size = 0) (n : Nat) :
    b.drain (n + 1) = ([], b) := by
  unfold RingBuffer.drain
  rw [pop_empty_eq b h]

theorem extend_models {b : RingBuffer} {L : List Nat} (data : List Nat) (hM : Models b L) :
    (b.extend data).1 = min data.length (b.capacity - b.size) ∧
    Models (b.extend data).2 (L ++ data.take (b.capacity - b.size)) := by
  induction data generalizing b L with
  | nil =>
    rw [extend_nil_eq]
    exact ⟨by simp, by simpa using hM⟩
  | cons byte rest ih =>
    have hsz : b.size ≤ b.capacity := hM.2.2.2.2.1
    by_cases hfull : b.size = b.capacity
    · rw [extend_cons_full_eq b byte rest hfull]
      have h0 : b.capacity - b.size = 0 := by omega
      rw [h0]
      exact ⟨by simp, by simpa using hM⟩
    · have hlt : b.size < b.capacity := by omega
      rw [extend_cons_ok_eq b byte rest hfull]
      have hM1 : Models (b.push byte).2 (L ++ [byte]) := push_models hM byte hlt
      have hsz1 : (b.push byte).2.size = b.size + 1 := by
        rw [push_not_full_eq b byte hfull]
      have hcap1 : (b.push byte).2.capacity = b.capacity := by
        rw [push_not_full_eq b byte hfull]
      obtain ⟨ih1, ih2⟩ := ih hM1
      rw [hsz1, hcap1] at ih1 ih2
      constructor
      · dsimp only
        simp only [List.length_cons]
        omega
      · dsimp only
        have hc1 : b.capacity - b.size = (b.capacity - (b.size + 1)) + 1 := by omega
        rw [hc1, List.take_succ_cons]
        simpa [List.append_assoc] using ih2

theorem drain_models {b : RingBuffer} {L : List Nat} (n : Nat) (hM : Models b L) :
    (b.drain n).1 = L.take n ∧ Models (b.drain n).2 (L.drop n) := by
  induction n generalizing b L with
  | zero =>
    rw [drain_zero_eq]
    exact ⟨by simp, by simpa using hM⟩
  | succ n ih =>
    cases L with
    | nil =>
      have h0 : b.size = 0 := by simpa using hM.2.2.2.2.2.1.symm
      rw [drain_succ_empty_eq b h0 n]
      exact ⟨by simp, by simpa using hM⟩
    | cons v L' =>
      rw [drain_succ_cons_eq b hM n]
      obtain ⟨ih1, ih2⟩ := ih (pop_models hM)
      exact ⟨by simp [ih1], by simpa using ih2⟩

theorem reachable_models {b : RingBuffer} (h : Reachable b) : ∃ L, Models b L := by
  induction h with
  | mk_new c b hnew => exact ⟨[], new_models hnew⟩
  | step_push b v _ ih =>
    obtain ⟨L, hM⟩ := ih
    by_cases hfull : b.size = b.capacity
    · rw [push_full_eq b v hfull]
      exact ⟨L, hM⟩
    · exact ⟨L ++ [v], push_models hM v (by have := hM.2.2.2.2.1; omega)⟩
  | step_pop b _ ih =>
    obtain ⟨L, hM⟩ := ih
    cases L with
    | nil =>
      have h0 : b.size = 0 := by simpa using hM.2.2.2.2.2.1.symm
      rw [pop_empty_eq b h0]
      exact ⟨[], hM⟩
    | cons v L' => exact ⟨L', pop_models hM⟩
  | step_extend b data _ ih =>
    obtain ⟨L, hM⟩ := ih
    exact ⟨_, (extend_models data hM).2⟩
  | step_drain b n _ ih =>
    obtain ⟨L, hM⟩ := ih
    exact ⟨_, (drain_models n hM).2⟩

theorem new_ok (c : Nat) (hc : 0 < c) :
    RingBuffer.new c = some (RingBuffer.mk (List.replicate c none) c 0 0 0) := by
  unfold RingBuffer.new
  rw [if_pos hc]

/-! The claims. -/

/-- C1: for every capacity `c > 0` and every sequence `vs` of at most `c`
values, pushing them in order (one `push` per element, via `extend`) into a
fresh `RingBuffer::new c` and then calling `drain vs.length` returns exactly
`vs` in that order. -/
theorem C1_fifo_order (c : Nat) (hc : 0 < c) (vs : List Nat) (hn : vs.length ≤ c) :
    ∃ b0, RingBuffer.new c = some b0 ∧ ((b0.extend vs).2.drain vs.length).1 = vs := by
  refine ⟨_, new_ok c hc, ?_⟩
  have hM0 : Models (RingBuffer.mk (List.replicate c none) c 0 0 0) [] :=
    new_models (new_ok c hc)
  have hM1 := (extend_models vs hM0).2
  dsimp only at hM1
  rw [Nat.sub_zero, List.take_of_length_le hn, List.nil_append] at hM1
  rw [(drain_models vs.length hM1).1, List.take_length]

theorem C1_witness :
    ∃ b0, RingBuffer.new 3 = some b0 ∧
      ((b0.extend [10, 20, 30]).2.drain 3).1 = [10, 20, 30] :=
  C1_fifo_order 3 (by decide) [10, 20, 30] (by decide)

/-- C2: every buffer reachable from a successful `new` by `push`, `pop`,
`extend` and `drain` calls satisfies the invariants: `head < capacity`,
`tail < capacity`, `size ≤ capacity`, `size = (tail - head + capacity) %
capacity` (integer arithmetic) whenever `size < capacity`, and `head = tail`
whenever `size = capacity`. -/
theorem C2_reachable_invariants (b : RingBuffer) (h : Reachable b) :
    b.head < b.capacity ∧ b.tail < b.capacity ∧ b.size ≤ b.capacity ∧
    (b.size < b.capacity →
      (b.size : Int) = ((b.tail : Int) - (b.head : Int) + (b.capacity : Int))
        % (b.capacity : Int)) ∧
    (b.size = b.capacity → b.head = b.tail) := by
  obtain ⟨L, hM⟩ := reachable_models h
  obtain ⟨hlen, hcap, hhead, htail, hsz, hL, hwin, hemp⟩ := hM
  refine ⟨hhead, ?_, hsz, ?_, ?_⟩
  · rw [htail]
    exact Nat.mod_lt _ hcap
  · intro hlt
    have hnat : b.size = (b.tail + b.capacity - b.head) % b.capacity := by
      rw [htail]
      have he : (b.head + b.size) % b.capacity + b.capacity - b.head
          = (b.head + b.size) % b.capacity + (b.capacity - b.head) := by omega
      rw [he, Nat.mod_add_mod]
      have he2 : b.head + b.size + (b.capacity - b.head) = b.size + b.capacity := by
        omega
      rw [he2, Nat.add_mod_right, Nat.mod_eq_of_lt hlt]
    rw [hnat, Int.natCast_mod]
    congr 1
    omega
  · intro hfull
    rw [htail, hfull, Nat.add_mod_right, Nat.mod_eq_of_lt hhead]

theorem C2_witness :
    (0 : Nat) < 3 ∧ (0 : Nat) < 3 ∧ (0 : Nat) ≤ 3 ∧
    ((0 : Nat) < 3 → (0 : Int) = ((0 : Int) - (0 : Int) + (3 : Int)) % (3 : Int)) ∧
    ((0 : Nat) = 3 → (0 : Nat) = 0) :=
  C2_reachable_invariants (RingBuffer.mk (List.replicate 3 none) 3 0 0 0)
    (Reachable.mk_new 3 _ rfl)

/-- C3: on a full buffer (`size = capacity`), `push` returns the
"Буфер Заполнен!" error and the buffer state is returned entirely
unchanged — storage, capacity, head, tail and size. -/
theorem C3_push_full_rejects (b : RingBuffer) (v : Nat) (h : b.size = b.capacity) :
    b.push v = (Except.error "Буфер Заполнен!", b) :=
  push_full_eq b v h

theorem C3_witness :
    (RingBuffer.mk [some 7] 1 0 0 1).push 5
      = (Except.error "Буфер Заполнен!", RingBuffer.mk [some 7] 1 0 0 1) :=
  C3_push_full_rejects (RingBuffer.mk [some 7] 1 0 0 1) 5 rfl

/-- C4: on a well-formed buffer holding `L`, `extend data` inserts exactly
the first `min data.length (capacity - size)` elements of `data` — a prefix,
in order, stopping when the buffer is full — returns that count, and the
resulting size never exceeds the capacity. -/
theorem extend_capacity_eq (b : RingBuffer) (data : List Nat) :
    (b.extend data).2.capacity = b.capacity := by
  induction data generalizing b with
  | nil => rfl
  | cons byte rest ih =>
    by_cases hf : b.size = b.capacity
    · rw [extend_cons_full_eq b byte rest hf]
    · rw [extend_cons_ok_eq b byte rest hf]
      dsimp only
      rw [ih ((b.push byte).2), push_not_full_eq b byte hf]

/-- C4: on a well-formed buffer holding `L`, `extend data` inserts exactly
the first `min data.length (capacity - size)` elements of `data` — a prefix,
in original order, stopping at the first push that would fail — returns that
count, and the resulting size never exceeds the capacity. -/
theorem C4_extend_spec (b : RingBuffer) (L data : List Nat) (hM : Models b L) :
    (b.extend data).1 = min data.length (b.capacity - b.size) ∧
    Models (b.extend data).2 (L ++ data.take (b.extend data).1) ∧
    (b.extend data).2.size ≤ b.capacity := by
  obtain ⟨h1, h2⟩ := extend_models data hM
  have htake : data.take (b.extend data).1 = data.take (b.capacity - b.size) := by
    rw [h1]
    rcases Nat.le_total data.length (b.capacity - b.size) with hle | hle
    · rw [Nat.min_eq_left hle, List.take_length, List.take_of_length_le hle]
    · rw [Nat.min_eq_right hle]
  refine ⟨h1, by rwa [htake], ?_⟩
  have hsz' := h2.2.2.2.2.1
  rwa [extend_capacity_eq b data] at hsz'

theorem C4_witness :
    ((RingBuffer.mk [none, none] 2 0 0 0).extend [1, 2, 3]).1 = min 3 (2 - 0) ∧
    Models ((RingBuffer.mk [none, none] 2 0 0 0).extend [1, 2, 3]).2
      ([] ++ [1, 2, 3].take ((RingBuffer.mk [none, none] 2 0 0 0).extend [1, 2, 3]).1) ∧
    ((RingBuffer.mk [none, none] 2 0 0 0).extend [1, 2, 3]).2.size ≤ 2 :=
  C4_extend_spec (RingBuffer.mk [none, none] 2 0 0 0) [] [1, 2, 3] (by decide)

/-- C5: on a well-formed buffer holding `s = len L` elements, `drain n`
returns exactly the `min n s` oldest elements, oldest first, with no element
skipped, duplicated or reordered, and the remaining content is the rest of
`L`, so the new size is `s - min n s`. -/
theorem C5_drain_spec (b : RingBuffer) (L : List Nat) (n : Nat) (hM : Models b L) :
    (b.drain n).1 = L.take n ∧
    (b.drain n).1.length = min n b.size ∧
    Models (b.drain n).2 (L.drop n) ∧
    (b.drain n).2.size = b.size - min n b.size := by
  obtain ⟨h1, h2⟩ := drain_models n hM
  have hL : L.length = b.size := hM.2.2.2.2.2.1
  have hlen2 : (L.drop n).length = (b.drain n).2.size := h2.2.2.2.2.2.1
  refine ⟨h1, ?_, h2, ?_⟩
  · rw [h1, List.length_take]
    omega
  · rw [← hlen2, List.length_drop]
    omega

theorem C5_witness :
    ((RingBuffer.mk [some 1, some 2] 2 0 0 2).drain 5).1 = [1, 2].take 5 ∧
    ((RingBuffer.mk [some 1, some 2] 2 0 0 2).drain 5).1.length = min 5 2 ∧
    Models ((RingBuffer.mk [some 1, some 2] 2 0 0 2).drain 5).2 ([1, 2].drop 5) ∧
    ((RingBuffer.mk [some 1, some 2] 2 0 0 2).drain 5).2.size = 2 - min 5 2 :=
  C5_drain_spec (RingBuffer.mk [some 1, some 2] 2 0 0 2) [1, 2] 5 (by decide)

/-- C6: `pop` on an empty buffer returns `none` with the state unchanged;
on a non-empty well-formed buffer it reads the slot at `head` (holding the
oldest value), clears that slot, advances `head` modulo `capacity`,
decrements `size`, and returns that oldest value. -/
theorem C6_pop_spec (b : RingBuffer) (L : List Nat) (hM : Models b L) :
    (b.size = 0 → b.pop = (none, b)) ∧
    (b.size ≠ 0 →
      b.buffer.getD b.head none = some (L.getD 0 0) ∧
      b.pop = (some (L.getD 0 0),
        { b with buffer := b.buffer.set b.head none
                 head := (b.head + 1) % b.capacity
                 size := b.size - 1 })) := by
  refine ⟨pop_empty_eq b, ?_⟩
  intro hs
  have hL : L.length = b.size := hM.2.2.2.2.2.1
  cases L with
  | nil =>
    exfalso
    simp only [List.length_nil] at hL
    omega
  | cons v L' =>
    exact ⟨by simpa using head_slot_eq hM, by simpa using pop_cons_eq hM⟩

theorem C6_witness :
    ((RingBuffer.mk [some 9] 1 0 0 1).size = 0 →
      (RingBuffer.mk [some 9] 1 0 0 1).pop = (none, RingBuffer.mk [some 9] 1 0 0 1)) ∧
    ((RingBuffer.mk [some 9] 1 0 0 1).size ≠ 0 →
      (RingBuffer.mk [some 9] 1 0 0 1).buffer.getD 0 none = some ([9].getD 0 0) ∧
      (RingBuffer.mk [some 9] 1 0 0 1).pop = (some ([9].getD 0 0),
        RingBuffer.mk ([some 9].set 0 none) 1 ((0 + 1) % 1) 0 (1 - 1))) :=
  C6_pop_spec (RingBuffer.mk [some 9] 1 0 0 1) [9] (by decide)

/-- C7: on a well-formed non-full buffer, `push v` stores `v` in the slot at
`tail`, advances `tail` modulo `capacity`, increments `size`, returns
success; the `tail` slot goes from empty (`none`) to occupied (`some v`) and
every other slot is unchanged. -/
theorem C7_push_spec (b : RingBuffer) (L : List Nat) (v : Nat) (hM : Models b L)
    (h : b.size < b.capacity) :
    b.push v = (Except.ok (),
      { b with buffer := b.buffer.set b.tail (some v)
               tail := (b.tail + 1) % b.capacity
               size := b.size + 1 }) ∧
    b.buffer.getD b.tail none = none ∧
    (b.push v).2.buffer.getD b.tail none = some v ∧
    (∀ i, i ≠ b.tail → (b.push v).2.buffer.getD i none = b.buffer.getD i none) := by
  obtain ⟨hlen, hcap, hhead, htail, hsz, hL, hwin, hemp⟩ := hM
  have hp := push_not_full_eq b v (Nat.ne_of_lt h)
  have htlt : b.tail < b.capacity := by
    rw [htail]
    exact Nat.mod_lt _ hcap
  refine ⟨hp, ?_, ?_, ?_⟩
  · refine hemp b.tail htlt ?_
    intro k hk
    rw [htail]
    intro hcontra
    exact absurd (window_inj h (by omega) hcontra) (by omega)
  · rw [hp]
    dsimp only
    exact getD_set_eq (by omega) (some v) none
  · intro i hi
    rw [hp]
    dsimp only
    exact getD_set_ne (fun e => hi e.symm) (some v) none

theorem C7_witness :
    (RingBuffer.mk [none, none] 2 0 0 0).push 5
      = (Except.ok (),
         RingBuffer.mk ([none, none].set 0 (some 5)) 2 0 ((0 + 1) % 2) (0 + 1)) ∧
    (RingBuffer.mk [none, none] 2 0 0 0).buffer.getD 0 none = none ∧
    ((RingBuffer.mk [none, none] 2 0 0 0).push 5).2.buffer.getD 0 none = some 5 ∧
    ((RingBuffer.mk [none, none] 2 0 0 0).push 5).2.buffer.getD 1 none
      = (RingBuffer.mk [none, none] 2 0 0 0).buffer.getD 1 none := by
  have h := C7_push_spec (RingBuffer.mk [none, none] 2 0 0 0) [] 5 (by decide) (by decide)
  exact ⟨h.1, h.2.1, h.2.2.1, h.2.2.2 1 (by decide)⟩

/-- C8: `new 0` signals the precondition violation (the Rust `assert!`
panic, modelled here as `none`), and for every `c > 0`, `new c` produces a
buffer with exactly `c` empty (`none`) slots and `head = tail = size = 0`,
so `is_empty` is true and `len` is `0`. -/
theorem C8_new_spec :
    RingBuffer.new 0 = none ∧
    ∀ c, 0 < c →
      RingBuffer.new c = some (RingBuffer.mk (List.replicate c none) c 0 0 0) ∧
      ∀ b, RingBuffer.new c = some b →
        b.buffer.length = c ∧ (∀ i, i < c → b.buffer.getD i none = none) ∧
        b.capacity = c ∧ b.head = 0 ∧ b.tail = 0 ∧ b.size = 0 ∧
        b.is_empty = true ∧ b.len = 0 := by
  refine ⟨rfl, ?_⟩
  intro c hc
  refine ⟨new_ok c hc, ?_⟩
  intro b hb
  rw [new_ok c hc, Option.some_inj] at hb
  subst hb
  refine ⟨by simp, ?_, rfl, rfl, rfl, rfl, rfl, rfl⟩
  intro i hi
  exact getD_replicate_of_lt hi none none

theorem C8_witness :
    RingBuffer.new 0 = none ∧
    RingBuffer.new 4 = some (RingBuffer.mk (List.replicate 4 none) 4 0 0 0) ∧
    (RingBuffer.mk (List.replicate 4 none) 4 0 0 0).buffer.getD 2 none = none ∧
    (RingBuffer.mk (List.replicate 4 none) 4 0 0 0).is_empty = true ∧
    (RingBuffer.mk (List.replicate 4 none) 4 0 0 0).len = 0 := by
  have h := C8_new_spec
  have h4 := h.2 4 (by decide)
  have hb := h4.2 _ h4.1
  exact ⟨h.1, h4.1, hb.2.1 2 (by decide), hb.2.2.2.2.2.2.1, hb.2.2.2.2.2.2.2⟩

/-- C9: `pop` on a buffer with `size = 0` returns `none` and leaves the
entire state — storage, capacity, head, tail and size — unchanged. -/
theorem C9_pop_empty_unchanged (b : RingBuffer) (h : b.size = 0) :
    b.pop = (none, b) :=
  pop_empty_eq b h

theorem C9_witness :
    (RingBuffer.mk [none] 1 0 0 0).pop = (none, RingBuffer.mk [none] 1 0 0 0) :=
  C9_pop_empty_unchanged (RingBuffer.mk [none] 1 0 0 0) rfl

/-- C10: in every reachable buffer, every slot outside the occupied logical
window `[head, head + size) mod capacity` physically holds `none` (push only
writes the newly occupied slot and pop clears the vacated slot), so no stale
value is ever present in an unoccupied slot. -/
theorem C10_empty_slots_none (b : RingBuffer) (h : Reachable b) :
    ∀ i, i < b.capacity → (∀ k, k < b.size → i ≠ (b.head + k) % b.capacity) →
      b.buffer.getD i none = none := by
  obtain ⟨L, hM⟩ := reachable_models h
  exact hM.2.2.2.2.2.2.2

theorem C10_witness :
    (RingBuffer.mk (List.replicate 3 none) 3 0 0 0).buffer.getD 1 none = none :=
  C10_empty_slots_none (RingBuffer.mk (List.replicate 3 none) 3 0 0 0)
    (Reachable.mk_new 3 _ rfl) 1 (by decide) (by decide)
